import Mathlib

/-!
# Verification of the Assignment2 distributed batch-processing framework

A shallow embedding of `src/Assignment2/assignment2.py`: a coordinator
(`runserver`) enqueues one job record per chunk on a network-shared job
queue, a pool of worker processes (`peon`) runs a fetch-execute-retire
loop, and termination is signalled with a poison-pill sentinel that every
worker re-enqueues before exiting.  The CSV report writer (`csv_writer`)
is embedded as well.

Python values that travel on the job queue are either the string sentinel
`POISONPILL = "MEMENTOMORI"` or a job dict `{'fn': ..., 'args': chunk}`;
we model them with the inductive `PyVal`.  Executing a job either returns
a value, raises `NameError` (the one recognized failure), or raises some
other exception; we model the outcome of calling `job['fn'](job['args'])`
with the inductive `Exec`, supplied as a parameter `exec : Job → Exec`.
-/

namespace Assignment2

/-- A chunk payload; the coordinator builds one job per chunk. -/
abbrev Chunk := Nat

/-- A job record `{'fn': obj.read_file, 'args': chunk}`: a function
reference (by name) paired with one chunk argument. -/
structure Job where
  fn : String
  args : Chunk
  deriving DecidableEq, Repr

/-- The sentinel string enqueued by the coordinator to signal termination. -/
def POISONPILL : String := "MEMENTOMORI"

/-- The error-marker sentinel stored in a result when a job raises the
recognized failure (`NameError`). -/
def ERROR : String := "DOH"

/-- A Python value that can sit on the job queue: a string (the poison
pill travels as the string `POISONPILL`) or a job dict. -/
inductive PyVal where
  | str (s : String)
  | dict (j : Job)
  deriving DecidableEq, Repr

/-- The poison pill as a queue value. -/
def pillVal : PyVal := PyVal.str POISONPILL

/-- The outcome stored in a result record: the value returned by the job
function, or the `ERROR` sentinel string. -/
inductive Outcome where
  | value (v : Int)
  | error
  deriving DecidableEq, Repr

/-- A result record `{'job': job, 'result': result}` pushed on the result
queue by a worker. -/
structure ResultRec where
  job : Job
  result : Outcome
  deriving DecidableEq, Repr

/-- What invoking `job['fn'](job['args'])` does: return a value, raise
`NameError` (the one exception class `peon` catches), or raise any other
exception. -/
inductive Exec where
  | ok (v : Int)
  | nameError
  | otherExc
  deriving DecidableEq, Repr

/-- The phase a worker is in after one pass of the `peon` loop body. -/
inductive WorkerPhase where
  | looping
  | terminated
  | crashed
  deriving DecidableEq, Repr

/-- One pass of the `peon` worker loop body, faithful to the source:
`get_nowait` from the job queue head; on `queue.Empty` sleep and loop; if
the value equals `POISONPILL`, re-enqueue the pill and return; otherwise
index it as a dict and execute `job['fn'](job['args'])` — on success push
`{'job': job, 'result': result}`, on `NameError` push
`{'job': job, 'result': ERROR}`, on any other exception the process dies
(a non-pill string would also crash the worker, at `job['fn']`).
Returns the new job queue, the new result queue, and the worker phase. -/
def peonStep (exec : Job → Exec) (jq : List PyVal) (rq : List ResultRec) :
    List PyVal × List ResultRec × WorkerPhase :=
  match jq with
  | [] => ([], rq, WorkerPhase.looping)
  | v :: rest =>
    if v = pillVal then
      (rest ++ [pillVal], rq, WorkerPhase.terminated)
    else
      match v with
      | PyVal.str _ => (rest, rq, WorkerPhase.crashed)
      | PyVal.dict j =>
        match exec j with
        | Exec.ok val => (rest, rq ++ [⟨j, Outcome.value val⟩], WorkerPhase.looping)
        | Exec.nameError => (rest, rq ++ [⟨j, Outcome.error⟩], WorkerPhase.looping)
        | Exec.otherExc => (rest, rq, WorkerPhase.crashed)

/-- Final status of a fuel-bounded worker run. -/
inductive PeonStatus where
  | terminated
  | crashed
  | outOfFuel
  deriving DecidableEq, Repr

/-- Iterate `peonStep` until the worker retires or crashes (or fuel runs
out, modelling an unbounded loop cut off after finitely many passes). -/
def peonRun (exec : Job → Exec) :
    Nat → List PyVal → List ResultRec → List PyVal × List ResultRec × PeonStatus
  | 0, jq, rq => (jq, rq, PeonStatus.outOfFuel)
  | fuel + 1, jq, rq =>
    match peonStep exec jq rq with
    | (jq2, rq2, WorkerPhase.looping) => peonRun exec fuel jq2 rq2
    | (jq2, rq2, WorkerPhase.terminated) => (jq2, rq2, PeonStatus.terminated)
    | (jq2, rq2, WorkerPhase.crashed) => (jq2, rq2, PeonStatus.crashed)

/-- An observable action of the coordinator process, in program order. -/
inductive Event where
  | startManager
  | putJob (j : Job)
  | sleep (secs : Nat)
  | getResult (r : ResultRec)
  | putPill
  | shutdown
  | writeCsv (outfile : Option String)
  deriving DecidableEq, Repr

/-- How a `runserver` run ends. -/
inductive RunOutcome where
  | nothingToDo
  | hung
  | finished (results : List ResultRec)
  deriving DecidableEq, Repr

/-- The collection loop of `runserver`: repeatedly `get_nowait` from the
result queue; on `queue.Empty` sleep one second and retry; after each
successful get, stop as soon as the accumulated count equals `expected`.
The environment is modelled by a schedule `σ`: at each loop iteration,
`get_nowait` yields `some r` or raises `Empty` (`none`).  Exhausting the
(finite) schedule without reaching `expected` models the loop never
returning; the result is then `none`.  Also records the event trace. -/
def collectTrace (expected : Nat) :
    List (Option ResultRec) → List ResultRec → List Event × Option (List ResultRec)
  | [], _ => ([], none)
  | some r :: rest, acc =>
    let acc2 := acc ++ [r]
    if acc2.length = expected then
      ([Event.getResult r], some acc2)
    else
      let next := collectTrace expected rest acc2
      (Event.getResult r :: next.1, next.2)
  | none :: rest, acc =>
    let next := collectTrace expected rest acc
    (Event.sleep 1 :: next.1, next.2)

/-- Build the job record `{'fn': obj.read_file, 'args': (chunk)}` for one
chunk. -/
def mkJob (c : Chunk) : Job := ⟨"read_file", c⟩

/-- The coordinator `runserver`, as its trace of observable actions plus
its outcome.  It starts the queue manager, returns at once if `chunks` is
falsy (empty), otherwise enqueues one job per chunk in order, sleeps two
seconds, runs the collection loop, and on completion enqueues the poison
pill, sleeps five seconds, shuts the manager down, and hands the results
to aggregation and `csv_writer`. -/
def runserver (chunks : List Chunk) (σ : List (Option ResultRec))
    (outfile : Option String) : List Event × RunOutcome :=
  if chunks.isEmpty then
    ([Event.startManager], RunOutcome.nothingToDo)
  else
    let ev1 := Event.startManager :: chunks.map (fun c => Event.putJob (mkJob c))
      ++ [Event.sleep 2]
    match collectTrace chunks.length σ [] with
    | (cev, none) => (ev1 ++ cev, RunOutcome.hung)
    | (cev, some res) =>
      (ev1 ++ cev
        ++ [Event.putPill, Event.sleep 5, Event.shutdown, Event.writeCsv outfile],
       RunOutcome.finished res)

/-- The character for a decimal digit `d < 10`. -/
def digitChar (d : Nat) : Char := Char.ofNat (48 + d)

/-- Decimal digit characters of a natural number, most significant first. -/
def natDigits (n : Nat) : List Char :=
  if _h : n < 10 then [digitChar n]
  else natDigits (n / 10) ++ [digitChar (n % 10)]
decreasing_by exact Nat.div_lt_self (by omega) (by omega)

/-- Decimal rendering of a natural number, modelling Python `str(key)`. -/
def natRepr (n : Nat) : String := String.mk (natDigits n)

/-- Fixed-point rendering with two digits after the decimal point,
modelling Python's `"{:.2f}".format(...)` (rounded to the nearest
hundredth; the binary-float rounding details of CPython are out of
scope, only the shape of the output matters here). -/
def format2f (q : ℚ) : String :=
  let n : ℤ := round (q * 100)
  let a : ℕ := n.natAbs
  (if n < 0 then "-" else "") ++ natRepr (a / 100) ++ "." ++
    String.mk [digitChar (a % 100 / 10), digitChar (a % 10)]

/-- `csv_writer`: resolves the default filename `outfile.csv` when none
is given, then writes the header row `["base position", "phred score"]`
followed by one row per key of `phred_dict`, the score formatted with
`"{:.2f}"`.  Modelled as the pair (filename written, rows written); the
dict is an association list in key-iteration order. -/
def csv_writer (phred_dict : List (Nat × ℚ)) (outfile : Option String) :
    String × List (List String) :=
  let file := match outfile with
    | none => "outfile.csv"
    | some f => f
  (file, ["base position", "phred score"] ::
    phred_dict.map (fun kv => [natRepr kv.1, format2f kv.2]))

/-- `s` ends in a decimal point followed by exactly two digit characters,
and contains no other decimal point: `s` is written with exactly two
decimal digits. -/
def twoDecimalPlaces (s : String) : Prop :=
  ∃ pre a b, s = pre ++ "." ++ String.mk [a, b] ∧
    a.isDigit = true ∧ b.isDigit = true ∧ '.' ∉ pre.data

/-- The lifecycle status of one worker process in the interleaved system
model.  `holdingPill` is the instant between `job_q.get_nowait()`
returning the pill and the worker's own `job_q.put(POISONPILL)`. -/
inductive WStatus where
  | running
  | holdingPill
  | retired
  | crashed
  deriving DecidableEq, Repr

/-- A global snapshot of the running system: whether the coordinator has
already enqueued the poison pill, the two shared queues, and the status
of each worker process. -/
structure Sys where
  pillSent : Bool
  jobQ : List PyVal
  resQ : List ResultRec
  workers : List WStatus
  deriving DecidableEq, Repr

/-- One interleaved step of the system: a coordinator queue operation or
one worker's next queue operation, against the shared FIFO queues.  The
worker steps follow the `peon` loop body; a worker is identified by its
position (`l.length`) in the status list. -/
inductive SysStep (exec : Job → Exec) : Sys → Sys → Prop where
  | putJob (j : Job) (jq rq ws) :
      SysStep exec ⟨false, jq, rq, ws⟩ ⟨false, jq ++ [PyVal.dict j], rq, ws⟩
  | putPill (jq rq ws) :
      SysStep exec ⟨false, jq, rq, ws⟩ ⟨true, jq ++ [pillVal], rq, ws⟩
  | fetchEmpty (b rq l r) :
      SysStep exec ⟨b, [], rq, l ++ WStatus.running :: r⟩
        ⟨b, [], rq, l ++ WStatus.running :: r⟩
  | fetchPill (b rest rq l r) :
      SysStep exec ⟨b, pillVal :: rest, rq, l ++ WStatus.running :: r⟩
        ⟨b, rest, rq, l ++ WStatus.holdingPill :: r⟩
  | requeuePill (b jq rq l r) :
      SysStep exec ⟨b, jq, rq, l ++ WStatus.holdingPill :: r⟩
        ⟨b, jq ++ [pillVal], rq, l ++ WStatus.retired :: r⟩
  | execOk (b j v rest rq l r) : exec j = Exec.ok v →
      SysStep exec ⟨b, PyVal.dict j :: rest, rq, l ++ WStatus.running :: r⟩
        ⟨b, rest, rq ++ [⟨j, Outcome.value v⟩], l ++ WStatus.running :: r⟩
  | execName (b j rest rq l r) : exec j = Exec.nameError →
      SysStep exec ⟨b, PyVal.dict j :: rest, rq, l ++ WStatus.running :: r⟩
        ⟨b, rest, rq ++ [⟨j, Outcome.error⟩], l ++ WStatus.running :: r⟩
  | execCrash (b j rest rq l r) : exec j = Exec.otherExc →
      SysStep exec ⟨b, PyVal.dict j :: rest, rq, l ++ WStatus.running :: r⟩
        ⟨b, rest, rq, l ++ WStatus.crashed :: r⟩
  | fetchStr (b st rest rq l r) : PyVal.str st ≠ pillVal →
      SysStep exec ⟨b, PyVal.str st :: rest, rq, l ++ WStatus.running :: r⟩
        ⟨b, rest, rq, l ++ WStatus.crashed :: r⟩

/-- The initial system state: pill not yet sent, both queues empty, all
`n` workers in their fetch loop. -/
def sysInit (n : Nat) : Sys := ⟨false, [], [], List.replicate n WStatus.running⟩

/-- Reachability under interleaved system steps. -/
def Reachable (exec : Job → Exec) : Sys → Sys → Prop :=
  Relation.ReflTransGen (SysStep exec)

/-- Number of poison pills sitting in a queue. -/
def pillCount : List PyVal → Nat
  | [] => 0
  | v :: rest => pillCount rest + (if v = pillVal then 1 else 0)

/-- Number of workers that have dequeued the pill and not yet re-enqueued
it. -/
def holderCount : List WStatus → Nat
  | [] => 0
  | w :: rest => holderCount rest + (if w = WStatus.holdingPill then 1 else 0)

/-- The poison-pill invariant: before the coordinator sends the pill, no
pill exists anywhere; afterwards, at every instant exactly one pill is
either in the job queue or held by a worker about to re-enqueue it.  In
particular at most one pill is ever present in the job queue, and the
pill is never lost while the queue service is up. -/
def PillInv (s : Sys) : Prop :=
  pillCount s.jobQ + holderCount s.workers = (if s.pillSent then 1 else 0)

/-- Number of `getResult` events in a coordinator trace. -/
def getCount : List Event → Nat
  | [] => 0
  | Event.getResult _ :: rest => getCount rest + 1
  | _ :: rest => getCount rest

/-- Number of `putPill` events in a coordinator trace. -/
def putPillCount : List Event → Nat
  | [] => 0
  | Event.putPill :: rest => putPillCount rest + 1
  | _ :: rest => putPillCount rest

theorem getCount_append (l1 l2 : List Event) :
    getCount (l1 ++ l2) = getCount l1 + getCount l2 := by
  induction l1 with
  | nil => simp [getCount]
  | cons e rest ih =>
    cases e <;> simp [getCount, ih]
    omega

theorem putPillCount_append (l1 l2 : List Event) :
    putPillCount (l1 ++ l2) = putPillCount l1 + putPillCount l2 := by
  induction l1 with
  | nil => simp [putPillCount]
  | cons e rest ih =>
    cases e <;> simp [putPillCount, ih]
    omega

/-- C3: a dequeued job whose execution raises the recognized failure
(`NameError`) makes the worker push the result record pairing that job
with the error marker, and the worker stays in its loop: the very next
pass of `peonRun` continues fetching from the rest of the queue, and the
worker does not crash. -/
theorem peon_nameError_recovers (exec : Job → Exec) (j : Job) (rest : List PyVal)
    (rq : List ResultRec) (h : exec j = Exec.nameError) :
    peonStep exec (PyVal.dict j :: rest) rq
      = (rest, rq ++ [⟨j, Outcome.error⟩], WorkerPhase.looping) ∧
    ∀ fuel, peonRun exec (fuel + 1) (PyVal.dict j :: rest) rq
      = peonRun exec fuel rest (rq ++ [⟨j, Outcome.error⟩]) := by
  have hstep : peonStep exec (PyVal.dict j :: rest) rq
      = (rest, rq ++ [⟨j, Outcome.error⟩], WorkerPhase.looping) := by
    simp [peonStep, pillVal, h]
  exact ⟨hstep, fun fuel => by simp [peonRun, hstep]⟩

theorem peon_nameError_recovers_witness :
    (fun _ : Job => Exec.nameError) (mkJob 0) = Exec.nameError ∧
    peonStep (fun _ => Exec.nameError) [PyVal.dict (mkJob 0), PyVal.dict (mkJob 1)] []
      = ([PyVal.dict (mkJob 1)], [⟨mkJob 0, Outcome.error⟩], WorkerPhase.looping) :=
  ⟨rfl, (peon_nameError_recovers (fun _ => Exec.nameError) (mkJob 0)
    [PyVal.dict (mkJob 1)] [] rfl).1⟩

/-- C4: a dequeued job whose execution raises any exception other than
`NameError` kills the worker at once: the result queue is unchanged (no
result record is pushed for that job), the job is not re-enqueued (the
job queue is just the remainder), and the run ends with status
`crashed`. -/
theorem peon_otherExc_crashes (exec : Job → Exec) (j : Job) (rest : List PyVal)
    (rq : List ResultRec) (h : exec j = Exec.otherExc) :
    peonStep exec (PyVal.dict j :: rest) rq = (rest, rq, WorkerPhase.crashed) ∧
    ∀ fuel, peonRun exec (fuel + 1) (PyVal.dict j :: rest) rq
      = (rest, rq, PeonStatus.crashed) := by
  have hstep : peonStep exec (PyVal.dict j :: rest) rq
      = (rest, rq, WorkerPhase.crashed) := by
    simp [peonStep, pillVal, h]
  exact ⟨hstep, fun fuel => by simp [peonRun, hstep]⟩

theorem peon_otherExc_crashes_witness :
    (fun _ : Job => Exec.otherExc) (mkJob 0) = Exec.otherExc ∧
    peonRun (fun _ => Exec.otherExc) 5 [PyVal.dict (mkJob 0), pillVal] []
      = ([pillVal], [], PeonStatus.crashed) :=
  ⟨rfl, (peon_otherExc_crashes (fun _ => Exec.otherExc) (mkJob 0)
    [pillVal] [] rfl).2 4⟩

/-- C7: the poison pill is distinct from every job record the
coordinator submits, and a worker that dequeues the pill re-enqueues it
and terminates without invoking any function reference on it: the step
result is the same for every possible execution semantics `exec`. -/
theorem pill_never_executed :
    (∀ j : Job, pillVal ≠ PyVal.dict j) ∧
    ∀ (e1 e2 : Job → Exec) (rest : List PyVal) (rq : List ResultRec),
      peonStep e1 (pillVal :: rest) rq = (rest ++ [pillVal], rq, WorkerPhase.terminated) ∧
      peonStep e1 (pillVal :: rest) rq = peonStep e2 (pillVal :: rest) rq := by
  refine ⟨fun j => by simp [pillVal], fun e1 e2 rest rq => ?_⟩
  have h1 : peonStep e1 (pillVal :: rest) rq
      = (rest ++ [pillVal], rq, WorkerPhase.terminated) := by simp [peonStep]
  have h2 : peonStep e2 (pillVal :: rest) rq
      = (rest ++ [pillVal], rq, WorkerPhase.terminated) := by simp [peonStep]
  exact ⟨h1, h1.trans h2.symm⟩

theorem pill_never_executed_witness :
    pillVal ≠ PyVal.dict (mkJob 3) ∧
    peonStep (fun _ => Exec.otherExc) (pillVal :: [PyVal.dict (mkJob 3)]) []
      = ([PyVal.dict (mkJob 3)] ++ [pillVal], [], WorkerPhase.terminated) :=
  ⟨pill_never_executed.1 (mkJob 3),
   (pill_never_executed.2 (fun _ => Exec.otherExc) (fun _ => Exec.ok 0)
     [PyVal.dict (mkJob 3)] []).1⟩

/-- C6: with an empty chunk sequence, the coordinator enqueues no job
and no pill and terminates at once with outcome `nothingToDo`. -/
theorem runserver_empty_noop (σ : List (Option ResultRec)) (out : Option String) :
    (runserver [] σ out).2 = RunOutcome.nothingToDo ∧
    (∀ j, (runserver [] σ out).1.count (Event.putJob j) = 0) ∧
    putPillCount (runserver [] σ out).1 = 0 ∧
    getCount (runserver [] σ out).1 = 0 := by
  refine ⟨rfl, fun j => ?_, rfl, rfl⟩
  simp [runserver, List.count_cons]

/-- C10: with an empty chunk sequence, `runserver` returns right after
the emptiness check: the queue manager has been started, and the trace
contains nothing else — no poison pill, no `manager.shutdown()` (the
listener is left running), and no CSV report. -/
theorem runserver_empty_frame (σ : List (Option ResultRec)) (out : Option String) :
    runserver [] σ out = ([Event.startManager], RunOutcome.nothingToDo) ∧
    putPillCount (runserver [] σ out).1 = 0 ∧
    (runserver [] σ out).1.count Event.shutdown = 0 ∧
    ∀ f, (runserver [] σ out).1.count (Event.writeCsv f) = 0 := by
  refine ⟨rfl, rfl, by simp [runserver, List.count_cons], fun f => ?_⟩
  simp [runserver, List.count_cons]

theorem collectTrace_some (expected : Nat) (σ : List (Option ResultRec)) :
    ∀ acc evs res, collectTrace expected σ acc = (evs, some res) →
      res.length = expected ∧ getCount evs + acc.length = expected := by
  induction σ with
  | nil => intro acc evs res h; simp [collectTrace] at h
  | cons o rest ih =>
    intro acc evs res h
    cases o with
    | some r =>
      simp only [collectTrace] at h
      by_cases hl : (acc ++ [r]).length = expected
      · rw [if_pos hl] at h
        simp only [Prod.mk.injEq, Option.some.injEq] at h
        obtain ⟨hev, hres⟩ := h
        subst hev
        subst hres
        refine ⟨by simpa using hl, ?_⟩
        simp only [getCount]
        simp at hl
        omega
      · rw [if_neg hl] at h
        rcases hct : collectTrace expected rest (acc ++ [r]) with ⟨evs2, o2⟩
        rw [hct] at h
        simp only [Prod.mk.injEq] at h
        obtain ⟨hev, hres⟩ := h
        subst hev
        have := ih (acc ++ [r]) evs2 res (by rw [hct, hres])
        simp only [getCount]
        simp at this ⊢
        omega
    | none =>
      simp only [collectTrace] at h
      rcases hct : collectTrace expected rest acc with ⟨evs2, o2⟩
      rw [hct] at h
      simp only [Prod.mk.injEq] at h
      obtain ⟨hev, hres⟩ := h
      subst hev
      have := ih acc evs2 res (by rw [hct, hres])
      simp only [getCount]
      omega

theorem collectTrace_hung (expected : Nat) (σ : List (Option ResultRec)) :
    ∀ acc, acc.length + (σ.filterMap id).length < expected →
      (collectTrace expected σ acc).2 = none := by
  induction σ with
  | nil => intro acc _; simp [collectTrace]
  | cons o rest ih =>
    intro acc h
    cases o with
    | some r =>
      have hl : (acc ++ [r]).length ≠ expected := by
        simp at h ⊢
        omega
      simp only [collectTrace]
      rw [if_neg hl]
      have := ih (acc ++ [r]) (by simp at h ⊢; omega)
      simpa using this
    | none =>
      simp only [collectTrace]
      have := ih acc (by simp at h ⊢; omega)
      simpa using this

theorem collectTrace_enough (expected : Nat) (σ : List (Option ResultRec)) :
    ∀ acc, acc.length < expected →
      expected ≤ acc.length + (σ.filterMap id).length →
      (collectTrace expected σ acc).2
        = some (acc ++ (σ.filterMap id).take (expected - acc.length)) := by
  induction σ with
  | nil =>
    intro acc h1 h2
    simp at h2
    omega
  | cons o rest ih =>
    intro acc h1 h2
    cases o with
    | some r =>
      simp only [collectTrace]
      by_cases hl : (acc ++ [r]).length = expected
      · rw [if_pos hl]
        have he : expected - acc.length = 1 := by simp at hl; omega
        simp [he]
      · rw [if_neg hl]
        have h1a : (acc ++ [r]).length < expected := by simp at hl ⊢; omega
        have h2a : expected ≤ (acc ++ [r]).length + (rest.filterMap id).length := by
          simp at h2 ⊢
          omega
        have hrec := ih (acc ++ [r]) h1a h2a
        have he : expected - acc.length = (expected - (acc.length + 1)) + 1 := by omega
        simp only [List.filterMap_cons_some] at hrec ⊢
        simp [hrec, he, List.take_succ_cons]
    | none =>
      simp only [collectTrace]
      have hrec := ih acc h1 (by simpa using h2)
      simpa using hrec

theorem collectTrace_events (expected : Nat) (σ : List (Option ResultRec)) :
    ∀ acc e, e ∈ (collectTrace expected σ acc).1 →
      (∃ r, e = Event.getResult r) ∨ e = Event.sleep 1 := by
  induction σ with
  | nil => intro acc e h; simp [collectTrace] at h
  | cons o rest ih =>
    intro acc e h
    cases o with
    | some r =>
      simp only [collectTrace] at h
      by_cases hl : (acc ++ [r]).length = expected
      · rw [if_pos hl] at h
        simp at h
        subst h
        exact Or.inl ⟨r, rfl⟩
      · rw [if_neg hl] at h
        simp at h
        cases h with
        | inl h => subst h; exact Or.inl ⟨r, rfl⟩
        | inr h => exact ih _ e h
    | none =>
      simp only [collectTrace] at h
      simp at h
      cases h with
      | inl h => subst h; exact Or.inr rfl
      | inr h => exact ih _ e h

theorem putPillCount_eq_zero (l : List Event)
    (h : ∀ e ∈ l, (∃ r, e = Event.getResult r) ∨ e = Event.sleep 1) :
    putPillCount l = 0 := by
  induction l with
  | nil => rfl
  | cons e rest ih =>
    have he := h e (by simp)
    have hrest := ih fun x hx => h x (by simp [hx])
    rcases he with ⟨r, hr⟩ | hr <;> subst hr <;> simpa [putPillCount] using hrest

theorem getCount_putJobs (chunks : List Chunk) :
    getCount (chunks.map fun c => Event.putJob (mkJob c)) = 0 := by
  induction chunks with
  | nil => rfl
  | cons c rest ih => simpa [getCount] using ih

theorem putPillCount_putJobs (chunks : List Chunk) :
    putPillCount (chunks.map fun c => Event.putJob (mkJob c)) = 0 := by
  induction chunks with
  | nil => rfl
  | cons c rest ih => simpa [putPillCount] using ih

/-- C1: whenever a `runserver` run completes (reaches the pill-enqueue),
it has collected exactly one result record per submitted chunk: the
collected list has length `chunks.length`, and the trace before the
poison-pill enqueue contains exactly `chunks.length` result dequeues. -/
theorem runserver_collects_all (chunks : List Chunk) (σ : List (Option ResultRec))
    (out : Option String) (evs : List Event) (res : List ResultRec)
    (hrun : runserver chunks σ out = (evs, RunOutcome.finished res)) :
    res.length = chunks.length ∧
    ∃ pre suf, evs = pre ++ Event.putPill :: suf ∧ getCount pre = chunks.length := by
  simp only [runserver] at hrun
  split at hrun
  · simp at hrun
  · split at hrun
    · simp at hrun
    · rename_i cev res2 hct
      simp only [Prod.mk.injEq, RunOutcome.finished.injEq] at hrun
      obtain ⟨hev, hres⟩ := hrun
      subst hres
      subst hev
      have hcoll := collectTrace_some chunks.length σ [] cev res2 hct
      refine ⟨by simpa using hcoll.1, ?_⟩
      refine ⟨(Event.startManager :: chunks.map (fun c => Event.putJob (mkJob c))
        ++ [Event.sleep 2]) ++ cev,
        [Event.sleep 5, Event.shutdown, Event.writeCsv out], rfl, ?_⟩
      have h2 := hcoll.2
      simp [getCount, getCount_append, getCount_putJobs chunks] at h2 ⊢
      omega

theorem runserver_collects_all_witness :
    ([⟨mkJob 0, Outcome.value 7⟩, ⟨mkJob 1, Outcome.value 8⟩] : List ResultRec).length
      = ([0, 1] : List Chunk).length ∧
    ∃ pre suf,
      (runserver [0, 1] [some ⟨mkJob 0, Outcome.value 7⟩, none, some ⟨mkJob 1, Outcome.value 8⟩]
        none).1 = pre ++ Event.putPill :: suf ∧ getCount pre = ([0, 1] : List Chunk).length := by
  have h := runserver_collects_all [0, 1]
    [some ⟨mkJob 0, Outcome.value 7⟩, none, some ⟨mkJob 1, Outcome.value 8⟩] none
    (runserver [0, 1] [some ⟨mkJob 0, Outcome.value 7⟩, none, some ⟨mkJob 1, Outcome.value 8⟩]
      none).1
    [⟨mkJob 0, Outcome.value 7⟩, ⟨mkJob 1, Outcome.value 8⟩] rfl
  exact h

/-- C5: the collection loop, run against any schedule of result-queue
states: if fewer results than expected ever arrive it never returns
(result `none`, modelling an indefinite block with no timeout and no
error), if at least `expected` results arrive it returns the first
`expected` of them, and every step of its trace is either a non-blocking
dequeue or a fixed one-second sleep on `queue.Empty`. -/
theorem collect_no_timeout (expected : Nat) (σ : List (Option ResultRec))
    (hpos : 1 ≤ expected) :
    ((σ.filterMap id).length < expected → (collectTrace expected σ []).2 = none) ∧
    (expected ≤ (σ.filterMap id).length →
      (collectTrace expected σ []).2 = some ((σ.filterMap id).take expected)) ∧
    ∀ e ∈ (collectTrace expected σ []).1,
      (∃ r, e = Event.getResult r) ∨ e = Event.sleep 1 := by
  refine ⟨fun h => collectTrace_hung expected σ [] (by simpa using h), fun h => ?_,
    fun e he => collectTrace_events expected σ [] e he⟩
  have := collectTrace_enough expected σ [] (by simpa using hpos) (by simpa using h)
  simpa using this

theorem collect_no_timeout_witness :
    (1 : Nat) ≤ 2 ∧
    (collectTrace 2 [none, some ⟨mkJob 0, Outcome.value 3⟩] []).2 = none ∧
    (collectTrace 1 [none, some ⟨mkJob 0, Outcome.value 3⟩] []).2
      = some [⟨mkJob 0, Outcome.value 3⟩] := by
  refine ⟨by omega, ?_, ?_⟩
  · exact (collect_no_timeout 2 [none, some ⟨mkJob 0, Outcome.value 3⟩] (by omega)).1
      (by simp)
  · have h := (collect_no_timeout 1 [none, some ⟨mkJob 0, Outcome.value 3⟩] (by omega)).2.1
      (by simp)
    simpa using h

/-- C8: whenever a `runserver` run completes, its trace ends with the
poison-pill enqueue, then the fixed five-second grace sleep, then the
queue-manager shutdown, then the report write — in that order — and the
poison pill is enqueued exactly once in the whole run. -/
theorem runserver_terminate_order (chunks : List Chunk) (σ : List (Option ResultRec))
    (out : Option String) (evs : List Event) (res : List ResultRec)
    (hrun : runserver chunks σ out = (evs, RunOutcome.finished res)) :
    putPillCount evs = 1 ∧
    ∃ pre, evs = pre
        ++ [Event.putPill, Event.sleep 5, Event.shutdown, Event.writeCsv out] ∧
      putPillCount pre = 0 := by
  simp only [runserver] at hrun
  split at hrun
  · simp at hrun
  · split at hrun
    · simp at hrun
    · rename_i cev res2 hct
      simp only [Prod.mk.injEq, RunOutcome.finished.injEq] at hrun
      obtain ⟨hev, -⟩ := hrun
      subst hev
      have h2 : putPillCount (collectTrace chunks.length σ []).1 = 0 :=
        putPillCount_eq_zero _ (collectTrace_events chunks.length σ [])
      rw [hct] at h2
      simp only at h2
      constructor
      · simp [putPillCount, putPillCount_append, putPillCount_putJobs chunks, h2]
      · refine ⟨(Event.startManager :: chunks.map (fun c => Event.putJob (mkJob c))
          ++ [Event.sleep 2]) ++ cev, rfl, ?_⟩
        simp [putPillCount, putPillCount_append, putPillCount_putJobs chunks, h2]

theorem runserver_terminate_order_witness :
    putPillCount (runserver [5] [some ⟨mkJob 5, Outcome.error⟩] (some "report.csv")).1 = 1 ∧
    ∃ pre, (runserver [5] [some ⟨mkJob 5, Outcome.error⟩] (some "report.csv")).1
        = pre ++ [Event.putPill, Event.sleep 5, Event.shutdown,
            Event.writeCsv (some "report.csv")] ∧
      putPillCount pre = 0 := by
  have h := runserver_terminate_order [5] [some ⟨mkJob 5, Outcome.error⟩] (some "report.csv")
    (runserver [5] [some ⟨mkJob 5, Outcome.error⟩] (some "report.csv")).1
    [⟨mkJob 5, Outcome.error⟩] rfl
  exact h

theorem pillCount_append (l1 l2 : List PyVal) :
    pillCount (l1 ++ l2) = pillCount l1 + pillCount l2 := by
  induction l1 with
  | nil => simp [pillCount]
  | cons v rest ih => simp [pillCount, ih]; omega

theorem holderCount_append (l1 l2 : List WStatus) :
    holderCount (l1 ++ l2) = holderCount l1 + holderCount l2 := by
  induction l1 with
  | nil => simp [holderCount]
  | cons w rest ih => simp [holderCount, ih]; omega

theorem holderCount_replicate_running (n : Nat) :
    holderCount (List.replicate n WStatus.running) = 0 := by
  induction n with
  | zero => rfl
  | succ m ih => simpa [List.replicate_succ, holderCount] using ih

theorem pillInv_step {exec : Job → Exec} {s s2 : Sys}
    (hstep : SysStep exec s s2) (hinv : PillInv s) : PillInv s2 := by
  cases hstep with
  | putJob j jq rq ws =>
    simp [PillInv, pillCount_append, pillCount, pillVal] at hinv ⊢
    omega
  | putPill jq rq ws =>
    simp [PillInv, pillCount_append, pillCount] at hinv ⊢
    omega
  | fetchEmpty b rq l r => exact hinv
  | fetchPill b rest rq l r =>
    cases b <;>
      simp [PillInv, pillCount, holderCount_append, holderCount] at hinv ⊢
    omega
  | requeuePill b jq rq l r =>
    cases b <;>
      simp [PillInv, pillCount_append, pillCount, holderCount_append, holderCount]
        at hinv ⊢
    omega
  | execOk b j v rest rq l r hexec =>
    cases b <;>
      simp [PillInv, pillCount, pillVal, holderCount_append, holderCount] at hinv ⊢ <;>
      omega
  | execName b j rest rq l r hexec =>
    cases b <;>
      simp [PillInv, pillCount, pillVal, holderCount_append, holderCount] at hinv ⊢ <;>
      omega
  | execCrash b j rest rq l r hexec =>
    cases b <;>
      simp [PillInv, pillCount, pillVal, holderCount_append, holderCount] at hinv ⊢ <;>
      omega
  | fetchStr b st rest rq l r hne =>
    cases b <;>
      simp [PillInv, pillCount, hne, holderCount_append, holderCount] at hinv ⊢ <;>
      omega

/-- C2: in every system state reachable from the initial state by any
interleaving of coordinator and worker queue operations, the poison-pill
invariant holds — the coordinator enqueues the pill at most once
(`putPill` requires `pillSent = false`), and once sent, exactly one pill
is in the job queue or in the hands of a worker about to re-enqueue it —
so at most one pill is ever present in the job queue, and the pill is
never lost: any worker fetching after a retirement observes it again. -/
theorem pill_invariant (exec : Job → Exec) (n : Nat) (s : Sys)
    (h : Reachable exec (sysInit n) s) :
    PillInv s ∧ pillCount s.jobQ ≤ 1 := by
  have hinv : PillInv s := by
    induction h with
    | refl =>
      simp [PillInv, sysInit, pillCount, holderCount_replicate_running]
    | tail hsteps hstep ih => exact pillInv_step hstep ih
  refine ⟨hinv, ?_⟩
  simp only [PillInv] at hinv
  split at hinv <;> omega

theorem pill_invariant_witness :
    PillInv ⟨true, [pillVal], [], [WStatus.retired]⟩ ∧
    pillCount ([pillVal] : List PyVal) ≤ 1 :=
  pill_invariant (fun _ => Exec.ok 0) 1 ⟨true, [pillVal], [], [WStatus.retired]⟩
    (Relation.ReflTransGen.head (SysStep.putPill [] [] [WStatus.running])
      (Relation.ReflTransGen.head (SysStep.fetchPill true [] [] [] [])
        (Relation.ReflTransGen.head (SysStep.requeuePill true [] [] [] [])
          Relation.ReflTransGen.refl)))

theorem digitChar_isDigit (d : Nat) (h : d < 10) : (digitChar d).isDigit = true := by
  interval_cases d <;> decide

theorem natDigits_isDigit (n : Nat) : ∀ c ∈ natDigits n, c.isDigit = true := by
  induction n using Nat.strong_induction_on with
  | _ n ih =>
    intro c hc
    rw [natDigits] at hc
    split at hc
    · next hlt =>
      simp at hc
      subst hc
      exact digitChar_isDigit n hlt
    · next hge =>
      rcases List.mem_append.mp hc with hm | hm
      · exact ih (n / 10) (Nat.div_lt_self (by omega) (by omega)) c hm
      · simp at hm
        subst hm
        exact digitChar_isDigit (n % 10) (Nat.mod_lt n (by omega))

theorem isDigit_ne_dot {c : Char} (h : c.isDigit = true) : c ≠ '.' := by
  intro he
  subst he
  exact absurd h (by decide)

theorem format2f_twoDecimalPlaces (q : ℚ) : twoDecimalPlaces (format2f q) := by
  refine ⟨(if round (q * 100) < 0 then "-" else "")
      ++ natRepr ((round (q * 100)).natAbs / 100),
    digitChar ((round (q * 100)).natAbs % 100 / 10),
    digitChar ((round (q * 100)).natAbs % 10), rfl,
    digitChar_isDigit _ (by omega), digitChar_isDigit _ (by omega), ?_⟩
  intro hmem
  rw [String.data_append] at hmem
  rcases List.mem_append.mp hmem with hm | hm
  · split at hm <;> exact absurd hm (by decide)
  · exact isDigit_ne_dot (natDigits_isDigit _ _ hm) rfl

/-- C9: the CSV writer defaults to the filename `outfile.csv` when no
output filename is given, its first row is the header
`["base position", "phred score"]`, it writes exactly one data row per
key of the aggregated mapping, and every score value is rendered with
exactly two digits after the decimal point. -/
theorem csv_writer_spec (phred_dict : List (Nat × ℚ)) (out : Option String) :
    (csv_writer phred_dict none).1 = "outfile.csv" ∧
    (csv_writer phred_dict out).2
      = ["base position", "phred score"] ::
          phred_dict.map (fun kv => [natRepr kv.1, format2f kv.2]) ∧
    (csv_writer phred_dict out).2.length = phred_dict.length + 1 ∧
    ∀ q : ℚ, twoDecimalPlaces (format2f q) :=
  ⟨rfl, rfl, by simp [csv_writer], fun q => format2f_twoDecimalPlaces q⟩

end Assignment2
